import Mathlib

/-!
Verification development for the commit module of a git object-store
binding (`src/commit.rs`).  The Rust wrapper is shallowly embedded:

* byte strings (`&[u8]`, C strings) become `List Nat`;
* a Rust `&str` is a byte string known to be valid UTF-8, so functions
  returning `Option<&str>` return the validated byte string itself;
* fallible Rust calls (`Result<T, Error>`) become `Except GError`;
* a call that can panic (`.unwrap()`) is modelled with an outer
  `Option`, `none` standing for the panic;
* the libgit2 object store behind the FFI boundary is modelled
  explicitly as a `Store` value, following the specification of the
  external collaborator (lookup by id, content-addressed write that
  returns a fresh id, reference update).
-/

/-- Byte strings: Rust `&[u8]` / C buffers, one `Nat` per byte. -/
abbrev Bytes := List Nat

/-- Whether a byte is a UTF-8 continuation byte (`0x80..=0xBF`). -/
def isCont (b : Nat) : Bool := 0x80 ≤ b && b ≤ 0xBF

/-- Model of Rust `str::from_utf8` validity: standard UTF-8 table with
overlong and surrogate rejection (first-byte / second-byte constraints). -/
def validUtf8 : Bytes → Bool
  | [] => true
  | b :: rest =>
    if b ≤ 0x7F then validUtf8 rest
    else match rest with
      | [] => false
      | c1 :: rest1 =>
        if 0xC2 ≤ b && b ≤ 0xDF then isCont c1 && validUtf8 rest1
        else match rest1 with
          | [] => false
          | c2 :: rest2 =>
            if b = 0xE0 then (0xA0 ≤ c1 && c1 ≤ 0xBF) && isCont c2 && validUtf8 rest2
            else if (0xE1 ≤ b && b ≤ 0xEC) || (0xEE ≤ b && b ≤ 0xEF) then
              isCont c1 && isCont c2 && validUtf8 rest2
            else if b = 0xED then (0x80 ≤ c1 && c1 ≤ 0x9F) && isCont c2 && validUtf8 rest2
            else match rest2 with
              | [] => false
              | c3 :: rest3 =>
                if b = 0xF0 then
                  (0x90 ≤ c1 && c1 ≤ 0xBF) && isCont c2 && isCont c3 && validUtf8 rest3
                else if 0xF1 ≤ b && b ≤ 0xF3 then
                  isCont c1 && isCont c2 && isCont c3 && validUtf8 rest3
                else if b = 0xF4 then
                  (0x80 ≤ c1 && c1 ≤ 0x8F) && isCont c2 && isCont c3 && validUtf8 rest3
                else false

/-- Model of `str::from_utf8(b)`: `Ok` returns a view of the same bytes. -/
def strFromUtf8 (b : Bytes) : Option Bytes :=
  if validUtf8 b then some b else none

/-- Object identifier: fixed-width content hash (20 bytes for SHA-1);
equality is byte-wise.  (`struct Oid` wrapping `raw::git_oid`.) -/
structure Oid where
  bytes : Bytes
deriving DecidableEq, Repr

/-- Commit timestamp: seconds since epoch and UTC offset in minutes
(`Time::new(seconds, offset)`). -/
structure Time where
  seconds : Int
  offsetMinutes : Int
deriving DecidableEq, Repr

/-- Authorship record attached to a commit (`git_signature`): raw name
and email bytes plus a timestamp. -/
structure Signature where
  name : Bytes
  email : Bytes
  when : Time
deriving DecidableEq, Repr

/-- Errors of the binding (`git2::Error`).  `fromStr` is
`Error::from_str(msg)`; `interiorNul` is the error `opt_cstr` returns
for a text argument with an embedded nul byte; `storeNotFound` is the
generic store-failure path a failed ODB lookup propagates. -/
inductive GError where
  | fromStr (msg : String)
  | interiorNul
  | storeNotFound
deriving DecidableEq, Repr

/-- The parsed commit object held behind `raw: *mut raw::git_commit`.
`rawMessage` and `rawHeader` are `Option` because the raw-layer
getters return C pointers that a malformed object could leave null
(`opt_bytes` maps a null pointer to `None`); `encoding` is the declared
message encoding, absent when the commit declares none. -/
structure CommitData where
  tree_id : Oid
  parents : List Oid
  author : Signature
  committer : Signature
  encoding : Option Bytes
  rawMessage : Option Bytes
  rawHeader : Option Bytes
deriving DecidableEq, Repr

/-- Modelled from the spec: libgit2 `git_commit_message` (behind the FFI
boundary, not part of `src/`) returns the raw message with leading
newlines stripped ("`message` is a prettified form (leading blank lines
stripped)"); null exactly when the raw message pointer is null. -/
def git_commit_message (c : CommitData) : Option Bytes :=
  c.rawMessage.map (List.dropWhile (fun b => b = 10))

/-- Modelled from the spec: libgit2 `git_commit_message_raw` returns the
verbatim message bytes ("`raw` is verbatim"). -/
def git_commit_message_raw (c : CommitData) : Option Bytes :=
  c.rawMessage

/-- Modelled from the spec: libgit2 `git_commit_raw_header` returns the
stored header bytes ("`raw_header` includes the full structured commit
header ... as stored"). -/
def git_commit_raw_header (c : CommitData) : Option Bytes :=
  c.rawHeader

/-- Modelled from the spec: libgit2 `git_commit_parentcount`. -/
def git_commit_parentcount (c : CommitData) : Nat :=
  c.parents.length

/-- Modelled from the spec: libgit2 `git_commit_parent_id` returns a
pointer to the i-th parent id, null when `i` is out of range. -/
def git_commit_parent_id (c : CommitData) (i : Nat) : Option Oid :=
  c.parents[i]?

/-- Whether a byte is ASCII whitespace, for the summary model. -/
def isWsByte (b : Nat) : Bool := b = 32 || b = 9 || b = 10 || b = 13

/-- First paragraph of a message: the bytes before the first blank line. -/
def firstPara : Bytes → Bytes
  | [] => []
  | 10 :: 10 :: _ => []
  | b :: r => b :: firstPara r

/-- Collapse every run of whitespace bytes to a single space. -/
def squashWs : Bytes → Bytes
  | [] => []
  | b :: r =>
    if isWsByte b then 32 :: squashWs (r.dropWhile isWsByte)
    else b :: squashWs r
termination_by l => l.length
decreasing_by
  · simpa using Nat.lt_succ_of_le (List.dropWhile_sublist isWsByte).length_le
  · simp

/-- Trim leading and trailing whitespace bytes. -/
def trimWs (b : Bytes) : Bytes :=
  ((b.dropWhile isWsByte).reverse.dropWhile isWsByte).reverse

/-- Modelled from the spec: libgit2 `git_commit_summary` — "first
paragraph of `message`, whitespace-collapsed; may be absent if decoding
fails" — null when the message itself is unavailable. -/
def git_commit_summary (c : CommitData) : Option Bytes :=
  (git_commit_message c).map (fun m => trimWs (squashWs (firstPara m)))

namespace CommitData

/-- `Commit::message_bytes`: `opt_bytes(..., git_commit_message(...)).unwrap()`.
The outer `Option` models the unwrap: `none` is the panic on a null
message pointer. -/
def message_bytes (c : CommitData) : Option Bytes :=
  git_commit_message c

/-- `Commit::message`: `str::from_utf8(self.message_bytes()).ok()`.
Outer `none` = the panic inherited from `message_bytes`; `some none` =
the message is not valid UTF-8. -/
def message (c : CommitData) : Option (Option Bytes) :=
  (c.message_bytes).map strFromUtf8

/-- `Commit::message_raw_bytes`: unwraps `git_commit_message_raw`;
outer `none` is the panic on a null pointer. -/
def message_raw_bytes (c : CommitData) : Option Bytes :=
  git_commit_message_raw c

/-- `Commit::message_raw`: `str::from_utf8(self.message_raw_bytes()).ok()`. -/
def message_raw (c : CommitData) : Option (Option Bytes) :=
  (c.message_raw_bytes).map strFromUtf8

/-- `Commit::raw_header_bytes`: unwraps `git_commit_raw_header`. -/
def raw_header_bytes (c : CommitData) : Option Bytes :=
  git_commit_raw_header c

/-- `Commit::raw_header`: `str::from_utf8(self.raw_header_bytes()).ok()`. -/
def raw_header (c : CommitData) : Option (Option Bytes) :=
  (c.raw_header_bytes).map strFromUtf8

/-- `Commit::message_encoding` as written in the source: it reads
`raw::git_commit_message` (not the encoding getter) and then
`bytes.map(|b| str::from_utf8(b).unwrap())`.  The outer `none` models
the `unwrap()` panicking on invalid UTF-8; `some none` is a null
pointer from the raw layer. -/
def message_encoding (c : CommitData) : Option (Option Bytes) :=
  match git_commit_message c with
  | none => some none
  | some b =>
    match strFromUtf8 b with
    | some s => some (some s)
    | none => none

/-- `Commit::summary_bytes`: `opt_bytes(self, git_commit_summary(...))`. -/
def summary_bytes (c : CommitData) : Option Bytes :=
  git_commit_summary c

/-- `Commit::summary`: `self.summary_bytes().and_then(|s| str::from_utf8(s).ok())`. -/
def summary (c : CommitData) : Option Bytes :=
  (c.summary_bytes).bind strFromUtf8

/-- `Commit::parent_id(i)`: null parent-id pointer becomes
`Error::from_str("parent index out of bounds")`. -/
def parent_id (c : CommitData) (i : Nat) : Except GError Oid :=
  match git_commit_parent_id c i with
  | none => .error (.fromStr "parent index out of bounds")
  | some id => .ok id

end CommitData

/-- `Commit::time`: modelled from the spec — "committer time, not author
time" (libgit2 `git_commit_time` reads the committer signature). -/
def CommitData.ctime (c : CommitData) : Time :=
  c.committer.when

/-- Little-endian base-256 digits of `n`, padded to width `w`: the byte
layout of an object id derived from a counter. -/
def natToBytesLE : Nat → Nat → Bytes
  | 0, _ => []
  | w + 1, n => n % 256 :: natToBytesLE w (n / 256)

/-- The `n`-th object id the store hands out (20-byte SHA-1 width). -/
def oidOfNat (n : Nat) : Oid :=
  ⟨natToBytesLE 20 n⟩

/-- A live commit handle: the Rust `Commit<'repo>` — a resolved object
together with the id it was resolved from (`git_commit_id`). -/
structure CommitHandle where
  oid : Oid
  data : CommitData
deriving DecidableEq, Repr

/-- `Commit::id`: `git_commit_id` on the underlying object. -/
def CommitHandle.id (c : CommitHandle) : Oid :=
  c.oid

/-- Modelled from the spec: the object store collaborator — a
content-addressed map of commit objects, named references, and a
counter from which fresh ids are minted ("the store returns a new id,
from which the caller re-fetches a new, wholly distinct immutable
commit instance"). -/
structure Store where
  commits : List (Oid × CommitData)
  refs : List (Bytes × Oid)
  ctr : Nat
deriving DecidableEq, Repr

/-- Find the object stored under an id. -/
def findCommit : List (Oid × CommitData) → Oid → Option CommitData
  | [], _ => none
  | p :: ps, o => if p.1 = o then some p.2 else findCommit ps o

/-- Modelled from the spec: `lookup_commit(Oid) -> Commit | NotFound`. -/
def Store.lookup_commit (s : Store) (o : Oid) : Except GError CommitHandle :=
  match findCommit s.commits o with
  | none => .error .storeNotFound
  | some d => .ok ⟨o, d⟩

/-- Point a named reference at an id, adding it when absent
(the `update_ref` side effect of amend). -/
def setRef : List (Bytes × Oid) → Bytes → Oid → List (Bytes × Oid)
  | [], n, o => [(n, o)]
  | p :: ps, n, o => if p.1 = n then (n, o) :: ps else p :: setRef ps n o

/-- Store well-formedness: every stored id was minted from the counter,
and the counter has not exhausted the 20-byte id space.  This is the
content-addressing invariant that makes freshly minted ids distinct
from every id already in the store. -/
def Store.WF (s : Store) : Prop :=
  s.ctr < 256 ^ 20 ∧ ∀ p ∈ s.commits, ∃ k, k < s.ctr ∧ p.1 = oidOfNat k

instance : DecidablePred Store.WF := fun s => by
  unfold Store.WF; infer_instance

/-- Modelled from the spec: `opt_cstr` (defined in the crate root, not
in `src/commit.rs`) converts an optional Rust string to an optional C
string, failing on an embedded nul byte — "the caller must guarantee
C-string-safe / embedded-nul-free arguments". -/
def opt_cstr : Option Bytes → Except GError (Option Bytes)
  | none => .ok none
  | some b => if 0 ∈ b then .error .interiorNul else .ok (some b)

/-- Structured commit header bytes derived from the identity fields
(tree / parent / author / committer / encoding lines); the header
grammar itself is opaque pass-through, so any function of exactly these
fields models it. -/
def encodeHeader (c : CommitData) : Bytes :=
  c.tree_id.bytes ++ c.parents.flatMap Oid.bytes ++
    c.author.name ++ c.author.email ++
    c.committer.name ++ c.committer.email ++ c.encoding.getD []

/-- Modelled from the spec: the commit record `git_commit_amend` writes
— "a copy of `self` with every `Some`-valued argument substituting the
corresponding field; `None` arguments preserve the original commit's
value.  Parent list is always carried over unchanged"; the stored
header is re-derived from the resulting identity fields. -/
def amendData (d : CommitData) (author committer : Option Signature)
    (encoding : Option Bytes) (message : Option Bytes)
    (tree : Option Oid) : CommitData :=
  let base : CommitData :=
    { tree_id := tree.getD d.tree_id
      parents := d.parents
      author := author.getD d.author
      committer := committer.getD d.committer
      encoding := encoding.orElse (fun _ => d.encoding)
      rawMessage := (message.map some).getD d.rawMessage
      rawHeader := none }
  { base with rawHeader := some (encodeHeader base) }

/-- The reference table after an amend: updated when a reference name
was supplied, untouched otherwise. -/
def amendRefs (refs : List (Bytes × Oid)) (update_ref : Option Bytes)
    (newId : Oid) : List (Bytes × Oid) :=
  match update_ref with
  | none => refs
  | some n => setRef refs n newId

/-- Modelled from the spec: libgit2 `git_commit_amend` — writes the
amended record under a freshly minted id, points the named reference
(when given) at the new id, and returns the fresh id. -/
def git_commit_amend (s : Store) (c : CommitHandle)
    (update_ref : Option Bytes)
    (author committer : Option Signature)
    (encoding : Option Bytes) (message : Option Bytes)
    (tree : Option Oid) : Except GError Oid × Store :=
  let newData := amendData c.data author committer encoding message tree
  let newId := oidOfNat s.ctr
  (.ok newId,
   { commits := (newId, newData) :: s.commits
     refs := amendRefs s.refs update_ref newId
     ctr := s.ctr + 1 })

/-- `Commit::amend`: converts the three optional text arguments through
`opt_cstr` (in source order: `update_ref`, `message_encoding`,
`message`), each failure returning before the store is touched, then
calls `git_commit_amend`. -/
def CommitHandle.amend (s : Store) (c : CommitHandle)
    (update_ref : Option Bytes)
    (author committer : Option Signature)
    (message_encoding : Option Bytes) (message : Option Bytes)
    (tree : Option Oid) : Except GError Oid × Store :=
  match opt_cstr update_ref with
  | .error e => (.error e, s)
  | .ok ur =>
    match opt_cstr message_encoding with
    | .error e => (.error e, s)
    | .ok enc =>
      match opt_cstr message with
      | .error e => (.error e, s)
      | .ok msg => git_commit_amend s c ur author committer enc msg tree

/-- `Commit::parent(i)`: libgit2 `git_commit_parent` bounds-checks the
index and then resolves the parent id through the ODB; both failures
surface on the generic store-error path (modelled from the spec's
description of the store collaborator). -/
def CommitData.parent (s : Store) (c : CommitData) (i : Nat) :
    Except GError CommitHandle :=
  match c.parents[i]? with
  | none => .error .storeNotFound
  | some o =>
    match findCommit s.commits o with
    | none => .error .storeNotFound
    | some d => .ok ⟨o, d⟩

/-- Rust `Range<usize>` as the iterators use it: half-open index range
`start..stop` (the struct's second field is spelled `end` in Rust). -/
structure RangeN where
  start : Nat
  stop : Nat
deriving DecidableEq, Repr

namespace RangeN

/-- `Range::next`: yield the front index and advance it. -/
def next (r : RangeN) : Option (Nat × RangeN) :=
  if r.start < r.stop then some (r.start, ⟨r.start + 1, r.stop⟩) else none

/-- `Range::next_back`: yield the back index and retract the stop bound. -/
def next_back (r : RangeN) : Option (Nat × RangeN) :=
  if r.start < r.stop then some (r.stop - 1, ⟨r.start, r.stop - 1⟩) else none

/-- `Range::size_hint` (exact for an integer range): remaining length. -/
def size_hint (r : RangeN) : Nat :=
  r.stop - r.start

/-- The indices the range has yet to yield, front to back. -/
def elems (r : RangeN) : List Nat :=
  List.range' r.start (r.stop - r.start)

/-- Drive a range through a schedule of pulls — `true` is `next`,
`false` is `next_back`; an exhausted pull yields nothing and leaves the
range unchanged.  Returns the yielded indices and the final range. -/
def runS : List Bool → RangeN → List Nat × RangeN
  | [], r => ([], r)
  | true :: cs, r =>
    match r.next with
    | none => runS cs r
    | some (i, r') =>
      let p := runS cs r'
      (i :: p.1, p.2)
  | false :: cs, r =>
    match r.next_back with
    | none => runS cs r
    | some (i, r') =>
      let p := runS cs r'
      (i :: p.1, p.2)

end RangeN

/-- The `ParentIds<'commit>` iterator: a captured index range and the
borrowed commit. -/
structure ParentIds where
  range : RangeN
  commit : CommitData
deriving DecidableEq, Repr

/-- `Commit::parent_ids`: capture `0..git_commit_parentcount`. -/
def CommitData.parent_ids (c : CommitData) : ParentIds :=
  ⟨⟨0, git_commit_parentcount c⟩, c⟩

namespace ParentIds

/-- `Iterator::next` for `ParentIds`:
`self.range.next().map(|i| self.commit.parent_id(i).unwrap())`.
The yielded `Option Oid` models the unwrap — `none` is the panic. -/
def next (it : ParentIds) : Option (Option Oid × ParentIds) :=
  (it.range.next).map fun p =>
    ((it.commit.parent_id p.1).toOption, ⟨p.2, it.commit⟩)

/-- `DoubleEndedIterator::next_back` for `ParentIds`. -/
def next_back (it : ParentIds) : Option (Option Oid × ParentIds) :=
  (it.range.next_back).map fun p =>
    ((it.commit.parent_id p.1).toOption, ⟨p.2, it.commit⟩)

/-- `Iterator::size_hint` for `ParentIds` delegates to the range. -/
def size_hint (it : ParentIds) : Nat :=
  it.range.size_hint

/-- Drive a `ParentIds` iterator through a schedule of pulls (`true` =
`next`, `false` = `next_back`), collecting the yielded items. -/
def runS : List Bool → ParentIds → List (Option Oid) × ParentIds
  | [], it => ([], it)
  | true :: cs, it =>
    match it.next with
    | none => runS cs it
    | some (y, it') =>
      let p := runS cs it'
      (y :: p.1, p.2)
  | false :: cs, it =>
    match it.next_back with
    | none => runS cs it
    | some (y, it') =>
      let p := runS cs it'
      (y :: p.1, p.2)

end ParentIds

/-- The `Parents<'commit, 'repo>` iterator: a captured index range and
the borrowed commit; each pull resolves a parent through the store. -/
structure Parents where
  range : RangeN
  commit : CommitData
deriving DecidableEq, Repr

/-- `Commit::parents`: capture `0..git_commit_parentcount`. -/
def CommitData.parentsIter (c : CommitData) : Parents :=
  ⟨⟨0, git_commit_parentcount c⟩, c⟩

namespace Parents

/-- `Iterator::next` for `Parents`:
`self.range.next().map(|i| self.commit.parent(i).unwrap())` — one store
lookup per pull; the yielded `Option CommitHandle` models the unwrap. -/
def next (s : Store) (it : Parents) : Option (Option CommitHandle × Parents) :=
  (it.range.next).map fun p =>
    ((it.commit.parent s p.1).toOption, ⟨p.2, it.commit⟩)

/-- `DoubleEndedIterator::next_back` for `Parents`. -/
def next_back (s : Store) (it : Parents) : Option (Option CommitHandle × Parents) :=
  (it.range.next_back).map fun p =>
    ((it.commit.parent s p.1).toOption, ⟨p.2, it.commit⟩)

/-- `Iterator::size_hint` for `Parents` delegates to the range. -/
def size_hint (it : Parents) : Nat :=
  it.range.size_hint

/-- Drive a `Parents` iterator through a schedule of pulls. -/
def runS (s : Store) : List Bool → Parents → List (Option CommitHandle) × Parents
  | [], it => ([], it)
  | true :: cs, it =>
    match it.next s with
    | none => runS s cs it
    | some (y, it') =>
      let p := runS s cs it'
      (y :: p.1, p.2)
  | false :: cs, it =>
    match it.next_back s with
    | none => runS s cs it
    | some (y, it') =>
      let p := runS s cs it'
      (y :: p.1, p.2)

end Parents

/-- Full forward traversal of `parent_ids()`, as `Iterator::count` or
`collect` performs it: `parentcount` forward pulls. -/
def CommitData.parentIdsAll (c : CommitData) : List (Option Oid) :=
  (ParentIds.runS (List.replicate (git_commit_parentcount c) true) c.parent_ids).1

/-- Full forward traversal of `parents()`. -/
def CommitData.parentsAll (s : Store) (c : CommitData) : List (Option CommitHandle) :=
  (Parents.runS s (List.replicate (git_commit_parentcount c) true) c.parentsIter).1

/-! ### Arithmetic of minted object ids -/

theorem natToBytesLE_injOn (w : Nat) :
    ∀ m n, m < 256 ^ w → n < 256 ^ w →
      natToBytesLE w m = natToBytesLE w n → m = n := by
  induction w with
  | zero =>
    intro m n hm hn _
    simp only [pow_zero] at hm hn
    omega
  | succ w ih =>
    intro m n hm hn h
    simp only [natToBytesLE, List.cons.injEq] at h
    have h2 : m / 256 = n / 256 := by
      apply ih
      · exact Nat.div_lt_of_lt_mul (by rwa [Nat.pow_succ, Nat.mul_comm] at hm)
      · exact Nat.div_lt_of_lt_mul (by rwa [Nat.pow_succ, Nat.mul_comm] at hn)
      · exact h.2
    have h1 : m % 256 = n % 256 := h.1
    omega

theorem oidOfNat_inj {m n : Nat} (hm : m < 256 ^ 20) (hn : n < 256 ^ 20)
    (h : oidOfNat m = oidOfNat n) : m = n :=
  natToBytesLE_injOn 20 m n hm hn (congrArg Oid.bytes h)

/-! ### Store lookup -/

theorem findCommit_eq_some_mem {l : List (Oid × CommitData)} {o : Oid} {d : CommitData}
    (h : findCommit l o = some d) : (o, d) ∈ l := by
  induction l with
  | nil => simp [findCommit] at h
  | cons p ps ih =>
    simp only [findCommit] at h
    split at h
    · next heq =>
      obtain rfl : p.2 = d := Option.some.inj h
      exact heq ▸ List.mem_cons_self p ps
    · exact List.mem_cons_of_mem _ (ih h)

theorem findCommit_cons (p : Oid × CommitData) (l : List (Oid × CommitData)) (o : Oid) :
    findCommit (p :: l) o = if p.1 = o then some p.2 else findCommit l o := rfl

/-! ### Range iterator lemmas -/

namespace RangeN

theorem next_eq_some {r : RangeN} {i : Nat} {r' : RangeN} (h : r.next = some (i, r')) :
    i = r.start ∧ r' = ⟨r.start + 1, r.stop⟩ ∧ r.start < r.stop := by
  unfold next at h
  split at h
  · next hlt => exact ⟨(Prod.mk.inj (Option.some.inj h)).1.symm,
      (Prod.mk.inj (Option.some.inj h)).2.symm, hlt⟩
  · exact absurd h (by simp)

theorem next_back_eq_some {r : RangeN} {i : Nat} {r' : RangeN}
    (h : r.next_back = some (i, r')) :
    i = r.stop - 1 ∧ r' = ⟨r.start, r.stop - 1⟩ ∧ r.start < r.stop := by
  unfold next_back at h
  split at h
  · next hlt => exact ⟨(Prod.mk.inj (Option.some.inj h)).1.symm,
      (Prod.mk.inj (Option.some.inj h)).2.symm, hlt⟩
  · exact absurd h (by simp)

theorem elems_of_next {r : RangeN} {i : Nat} {r' : RangeN} (h : r.next = some (i, r')) :
    r.elems = i :: r'.elems := by
  obtain ⟨rfl, rfl, hlt⟩ := next_eq_some h
  unfold elems
  have hs : r.stop - r.start = (r.stop - (r.start + 1)) + 1 := by omega
  rw [hs, List.range'_succ]

theorem elems_of_next_back {r : RangeN} {i : Nat} {r' : RangeN}
    (h : r.next_back = some (i, r')) :
    r.elems = r'.elems ++ [i] := by
  obtain ⟨rfl, rfl, hlt⟩ := next_back_eq_some h
  unfold elems
  have hs : r.stop - r.start = (r.stop - 1 - r.start) + 1 := by omega
  rw [hs, List.range'_1_concat]
  have : r.start + (r.stop - 1 - r.start) = r.stop - 1 := by omega
  rw [this]

theorem elems_of_next_none {r : RangeN} (h : r.next = none) : r.elems = [] := by
  unfold next at h
  split at h
  · exact absurd h (by simp)
  · next hlt =>
    unfold elems
    have : r.stop - r.start = 0 := by omega
    rw [this, List.range']

theorem elems_of_next_back_none {r : RangeN} (h : r.next_back = none) : r.elems = [] := by
  unfold next_back at h
  split at h
  · exact absurd h (by simp)
  · next hlt =>
    unfold elems
    have : r.stop - r.start = 0 := by omega
    rw [this, List.range']

theorem size_hint_eq_length (r : RangeN) : r.size_hint = r.elems.length := by
  simp [size_hint, elems]

theorem runS_perm (cs : List Bool) :
    ∀ r : RangeN, ((runS cs r).1 ++ (runS cs r).2.elems).Perm r.elems := by
  induction cs with
  | nil => intro r; simp [runS]
  | cons c cs ih =>
    intro r
    cases c
    case false =>
      simp only [runS]
      cases hnb : r.next_back with
      | none => simpa using ih r
      | some p =>
        obtain ⟨i, r'⟩ := p
        have he : r.elems = r'.elems ++ [i] := elems_of_next_back hnb
        rw [he, List.cons_append]
        exact ((ih r').cons i).trans (List.perm_append_singleton i r'.elems).symm
    case true =>
      simp only [runS]
      cases hn : r.next with
      | none => simpa using ih r
      | some p =>
        obtain ⟨i, r'⟩ := p
        have he : r.elems = i :: r'.elems := elems_of_next hn
        rw [he, List.cons_append]
        exact (ih r').cons i

theorem runS_replicate_true (k : Nat) :
    ∀ r : RangeN, (runS (List.replicate k true) r).1 = r.elems.take k := by
  induction k with
  | zero => intro r; simp [runS]
  | succ k ih =>
    intro r
    simp only [List.replicate_succ, runS]
    cases hn : r.next with
    | none =>
      have he : r.elems = [] := elems_of_next_none hn
      simp [hn, he, ih r]
    | some p =>
      obtain ⟨i, r'⟩ := p
      have he : r.elems = i :: r'.elems := elems_of_next hn
      simp [hn, he, ih r']

end RangeN

/-! ### Simulation: commit iterators are the range iterator plus a map -/

theorem parentIds_runS_sim (cs : List Bool) :
    ∀ it : ParentIds,
      ParentIds.runS cs it =
        (((RangeN.runS cs it.range).1).map (fun i => (it.commit.parent_id i).toOption),
         ⟨(RangeN.runS cs it.range).2, it.commit⟩) := by
  induction cs with
  | nil => intro it; simp [ParentIds.runS, RangeN.runS]
  | cons c cs ih =>
    intro it
    obtain ⟨r, cm⟩ := it
    cases c
    case false =>
      simp only [ParentIds.runS, RangeN.runS, ParentIds.next_back]
      cases hnb : r.next_back with
      | none => simpa using ih ⟨r, cm⟩
      | some p =>
        obtain ⟨i, r'⟩ := p
        simp [ih ⟨r', cm⟩]
    case true =>
      simp only [ParentIds.runS, RangeN.runS, ParentIds.next]
      cases hn : r.next with
      | none => simpa using ih ⟨r, cm⟩
      | some p =>
        obtain ⟨i, r'⟩ := p
        simp [ih ⟨r', cm⟩]

theorem parents_runS_sim (s : Store) (cs : List Bool) :
    ∀ it : Parents,
      Parents.runS s cs it =
        (((RangeN.runS cs it.range).1).map (fun i => (it.commit.parent s i).toOption),
         ⟨(RangeN.runS cs it.range).2, it.commit⟩) := by
  induction cs with
  | nil => intro it; simp [Parents.runS, RangeN.runS]
  | cons c cs ih =>
    intro it
    obtain ⟨r, cm⟩ := it
    cases c
    case false =>
      simp only [Parents.runS, RangeN.runS, Parents.next_back]
      cases hnb : r.next_back with
      | none => simpa using ih ⟨r, cm⟩
      | some p =>
        obtain ⟨i, r'⟩ := p
        simp [ih ⟨r', cm⟩]
    case true =>
      simp only [Parents.runS, RangeN.runS, Parents.next]
      cases hn : r.next with
      | none => simpa using ih ⟨r, cm⟩
      | some p =>
        obtain ⟨i, r'⟩ := p
        simp [ih ⟨r', cm⟩]

/-! ### Indexed map over a full range -/

theorem range_map_getElem? {α β : Type} (l : List α) (f : Option α → β) :
    (List.range l.length).map (fun i => f l[i]?) = l.map (fun a => f (some a)) := by
  induction l with
  | nil => simp
  | cons a l ih =>
    rw [List.length_cons, List.range_succ_eq_map]
    simp only [List.map_cons, List.getElem?_cons_zero, List.map_map]
    refine congrArg (f (some a) :: ·) ?_
    have hcomp : ((fun i => f (a :: l)[i]?) ∘ Nat.succ) = (fun i => f l[i]?) := by
      funext i
      simp
    rw [hcomp, ih]

/-- The value `parent_id(i)` yields, viewed through `unwrap`'s lens:
exactly the optional indexed access into the parent list. -/
theorem parent_id_toOption (c : CommitData) (i : Nat) :
    (c.parent_id i).toOption = c.parents[i]? := by
  unfold CommitData.parent_id git_commit_parent_id
  cases c.parents[i]? <;> simp [Except.toOption]

/-- The value `parent(i)` yields through `unwrap`'s lens: indexed access
followed by a store lookup. -/
theorem parent_toOption (s : Store) (c : CommitData) (i : Nat) :
    (c.parent s i).toOption =
      (c.parents[i]?).bind
        (fun o => (findCommit s.commits o).map (fun d => (⟨o, d⟩ : CommitHandle))) := by
  unfold CommitData.parent
  cases hp : c.parents[i]? with
  | none => simp [Except.toOption]
  | some o =>
    cases hf : findCommit s.commits o <;> simp [Except.toOption, hf]

/-- Full forward traversal of `parent_ids()` yields exactly the parent
list (each element successfully unwrapped). -/
theorem parentIdsAll_eq (c : CommitData) : c.parentIdsAll = c.parents.map some := by
  unfold CommitData.parentIdsAll CommitData.parent_ids
  rw [parentIds_runS_sim]
  simp only
  rw [RangeN.runS_replicate_true]
  have h1 : RangeN.elems ⟨0, git_commit_parentcount c⟩ =
      List.range (git_commit_parentcount c) := by
    simp [RangeN.elems, List.range_eq_range']
  rw [h1]
  unfold git_commit_parentcount
  rw [List.take_of_length_le (by simp)]
  have h2 : (fun i => (CommitData.parent_id c i).toOption) = fun i => c.parents[i]? := by
    funext i
    exact parent_id_toOption c i
  rw [h2]
  simpa using range_map_getElem? c.parents (fun o => o)

/-- Full forward traversal of `parents()` yields, per parent id, the
store's resolution of that id. -/
theorem parentsAll_eq (s : Store) (c : CommitData) :
    c.parentsAll s = c.parents.map
      (fun o => (findCommit s.commits o).map (fun d => (⟨o, d⟩ : CommitHandle))) := by
  unfold CommitData.parentsAll CommitData.parentsIter
  rw [parents_runS_sim]
  simp only
  rw [RangeN.runS_replicate_true]
  have h1 : RangeN.elems ⟨0, git_commit_parentcount c⟩ =
      List.range (git_commit_parentcount c) := by
    simp [RangeN.elems, List.range_eq_range']
  rw [h1]
  unfold git_commit_parentcount
  rw [List.take_of_length_le (by simp)]
  have h2 : (fun i => (CommitData.parent s c i).toOption) =
      fun i => (c.parents[i]?).bind
        (fun o => (findCommit s.commits o).map (fun d => (⟨o, d⟩ : CommitHandle))) := by
    funext i
    exact parent_toOption s c i
  rw [h2]
  exact range_map_getElem? c.parents
    (fun oo => oo.bind (fun o => (findCommit s.commits o).map (fun d => (⟨o, d⟩ : CommitHandle))))

/-! ### Operations on a commit handle, for the purity contract -/

/-- Result values of the commit operations. -/
inductive OpValue where
  | oidV (o : Oid)
  | textV (v : Option (Option Bytes))
  | bytesV (v : Option Bytes)
  | timeV (t : Time)
  | sigV (sg : Signature)
  | commitResV (r : Except GError CommitHandle)
  | oidResV (r : Except GError Oid)
  | parentsItV (it : Parents)
  | parentIdsItV (it : ParentIds)

/-- The operations the commit API exposes: every accessor of
`Commit<'repo>`, plus `amend` (the one store-writing operation),
so that the frame contract of the accessors is stated against an
operation type in which writes are expressible. -/
inductive Op where
  | getId
  | getTreeId
  | getMessage
  | getMessageBytes
  | getMessageRaw
  | getMessageRawBytes
  | getRawHeader
  | getRawHeaderBytes
  | getMessageEncoding
  | getSummary
  | getSummaryBytes
  | getTime
  | getAuthor
  | getCommitter
  | getParentsIter
  | getParentIdsIter
  | getParent (i : Nat)
  | getParentId (i : Nat)
  | doAmend (ur : Option Bytes) (au co : Option Signature)
      (enc msg : Option Bytes) (tr : Option Oid)

/-- Whether an operation is one of the accessors (everything except
`amend`). -/
def Op.isAccessor : Op → Bool
  | .doAmend _ _ _ _ _ _ => false
  | _ => true

/-- Run one operation against the store and a live commit handle,
returning its value and the store afterwards.  Accessors call the
side-effect-free getters of the embedding; `amend` threads the store
through the write. -/
def runOp (s : Store) (c : CommitHandle) : Op → OpValue × Store
  | .getId => (.oidV c.id, s)
  | .getTreeId => (.oidV c.data.tree_id, s)
  | .getMessage => (.textV c.data.message, s)
  | .getMessageBytes => (.bytesV c.data.message_bytes, s)
  | .getMessageRaw => (.textV c.data.message_raw, s)
  | .getMessageRawBytes => (.bytesV c.data.message_raw_bytes, s)
  | .getRawHeader => (.textV c.data.raw_header, s)
  | .getRawHeaderBytes => (.bytesV c.data.raw_header_bytes, s)
  | .getMessageEncoding => (.textV c.data.message_encoding, s)
  | .getSummary => (.bytesV c.data.summary, s)
  | .getSummaryBytes => (.bytesV c.data.summary_bytes, s)
  | .getTime => (.timeV c.data.ctime, s)
  | .getAuthor => (.sigV c.data.author, s)
  | .getCommitter => (.sigV c.data.committer, s)
  | .getParentsIter => (.parentsItV c.data.parentsIter, s)
  | .getParentIdsIter => (.parentIdsItV c.data.parent_ids, s)
  | .getParent i => (.commitResV (c.data.parent s i), s)
  | .getParentId i => (.oidResV (c.data.parent_id i), s)
  | .doAmend ur au co enc msg tr =>
    let r := CommitHandle.amend s c ur au co enc msg tr
    (.oidResV r.1, r.2)

/-! ### Concrete fixtures -/

/-- Byte string of the ASCII message `"hello"`. -/
def helloBytes : Bytes := [104, 101, 108, 108, 111]

/-- Byte string of the encoding name `"ISO-8859-1"`. -/
def isoBytes : Bytes := [73, 83, 79, 45, 56, 56, 53, 57, 45, 49]

/-- A signature fixture. -/
def sig0 : Signature := ⟨[110], [101], ⟨100, 0⟩⟩

/-- A second signature fixture. -/
def sig1 : Signature := ⟨[109], [102], ⟨200, 60⟩⟩

/-- A commit that declares the encoding `"ISO-8859-1"` and has message
`"hello"`. -/
def cEnc : CommitData :=
  { tree_id := oidOfNat 0
    parents := []
    author := sig0
    committer := sig0
    encoding := some isoBytes
    rawMessage := some helloBytes
    rawHeader := some [116] }

/-- The same commit with no declared encoding. -/
def cNoEnc : CommitData := { cEnc with encoding := none }

/-- A commit whose message (and header) bytes are not valid UTF-8. -/
def cBad : CommitData :=
  { cEnc with encoding := none, rawMessage := some [255], rawHeader := some [255] }

/-- A commit with three parents. -/
def c3p : CommitData :=
  { tree_id := oidOfNat 0
    parents := [oidOfNat 0, oidOfNat 1, oidOfNat 2]
    author := sig0
    committer := sig1
    encoding := none
    rawMessage := some helloBytes
    rawHeader := some [116] }

/-- A parentless commit fixture living in the store. -/
def d0 : CommitData :=
  { tree_id := oidOfNat 0
    parents := []
    author := sig0
    committer := sig0
    encoding := none
    rawMessage := some [97]
    rawHeader := some [104] }

/-- A well-formed store holding `c3p` and its three parents. -/
def store0 : Store :=
  { commits := [(oidOfNat 0, d0), (oidOfNat 1, d0), (oidOfNat 2, d0), (oidOfNat 3, c3p)]
    refs := []
    ctr := 4 }

/-! ### Claim theorems -/

/-- C4: `parent_id(i)` with `i >= parentcount` returns the
"parent index out of bounds" error, and with `i < parentcount` returns
`Ok` of the i-th element of the sequence `parent_ids()` yields. -/
theorem parent_id_bounds_check (c : CommitData) (i : Nat) :
    (git_commit_parentcount c ≤ i →
      c.parent_id i = .error (.fromStr "parent index out of bounds")) ∧
    (∀ h : i < git_commit_parentcount c,
      c.parent_id i = .ok (c.parents.get ⟨i, h⟩) ∧
      c.parentIdsAll[i]? = some (some (c.parents.get ⟨i, h⟩))) := by
  constructor
  · intro hge
    unfold CommitData.parent_id git_commit_parent_id
    rw [List.getElem?_eq_none hge]
  · intro h
    have hsome : c.parents[i]? = some c.parents[i] := List.getElem?_eq_getElem h
    refine ⟨?_, ?_⟩
    · unfold CommitData.parent_id git_commit_parent_id
      rw [hsome]
      simp [List.get_eq_getElem]
    · rw [parentIdsAll_eq]
      simp [hsome, List.get_eq_getElem]

/-- C4 witness: a commit with three parents, checked at indices 5
(out of range) and 1 (in range). -/
theorem parent_id_bounds_check_witness :
    git_commit_parentcount c3p ≤ 5 ∧
    c3p.parent_id 5 = .error (.fromStr "parent index out of bounds") ∧
    1 < git_commit_parentcount c3p ∧
    c3p.parent_id 1 = .ok (oidOfNat 1) ∧
    c3p.parentIdsAll[1]? = some (some (oidOfNat 1)) := by
  refine ⟨by decide, (parent_id_bounds_check c3p 5).1 (by decide), by decide, ?_, ?_⟩
  · exact ((parent_id_bounds_check c3p 1).2 (by decide)).1
  · exact ((parent_id_bounds_check c3p 1).2 (by decide)).2

/-- C5: `parent_ids()` yields exactly `parentcount` elements — the
parent list itself — `parents()` yields the same number, and the two
sequences agree, element by element and in order, on ids. -/
theorem parents_parent_ids_agree (s : Store) (c : CommitData)
    (hres : ∀ o ∈ c.parents, (findCommit s.commits o).isSome = true) :
    c.parentIdsAll = c.parents.map some ∧
    c.parentIdsAll.length = git_commit_parentcount c ∧
    (c.parentsAll s).length = git_commit_parentcount c ∧
    (c.parentsAll s).map (Option.map CommitHandle.id) = c.parentIdsAll := by
  refine ⟨parentIdsAll_eq c, ?_, ?_, ?_⟩
  · rw [parentIdsAll_eq]; simp [git_commit_parentcount]
  · rw [parentsAll_eq]; simp [git_commit_parentcount]
  · rw [parentsAll_eq, parentIdsAll_eq, List.map_map]
    apply List.map_congr_left
    intro o ho
    obtain ⟨d, hd⟩ := Option.isSome_iff_exists.mp (hres o ho)
    simp [hd, CommitHandle.id]

/-- C5 witness: the three-parent commit against the store that holds
its parents. -/
theorem parents_parent_ids_agree_witness :
    (∀ o ∈ c3p.parents, (findCommit store0.commits o).isSome = true) ∧
    (c3p.parentIdsAll = c3p.parents.map some ∧
     c3p.parentIdsAll.length = git_commit_parentcount c3p ∧
     (c3p.parentsAll store0).length = git_commit_parentcount c3p ∧
     (c3p.parentsAll store0).map (Option.map CommitHandle.id) = c3p.parentIdsAll) :=
  ⟨by decide, parents_parent_ids_agree store0 c3p (by decide)⟩

/-- C6: under any interleaving of `next` and `next_back` pulls, the
`ParentIds` iterator yields exactly the values `parent_id` gives at the
indices the underlying range hands out; those indices together with the
indices still pending form a permutation of `0..parentcount` (each
index exactly once, none skipped, none duplicated), and the iterator's
remaining-count is exact at every step. -/
theorem parent_ids_bidirectional_exactly_once (c : CommitData) (cs : List Bool) :
    (ParentIds.runS cs c.parent_ids).1 =
      ((RangeN.runS cs ⟨0, git_commit_parentcount c⟩).1).map
        (fun i => (c.parent_id i).toOption) ∧
    ((RangeN.runS cs ⟨0, git_commit_parentcount c⟩).1 ++
        (ParentIds.runS cs c.parent_ids).2.range.elems).Perm
      (List.range (git_commit_parentcount c)) ∧
    ((RangeN.runS cs ⟨0, git_commit_parentcount c⟩).1).Nodup ∧
    ((RangeN.runS cs ⟨0, git_commit_parentcount c⟩).1).length +
        (ParentIds.runS cs c.parent_ids).2.size_hint =
      git_commit_parentcount c := by
  have hspec := parentIds_runS_sim cs c.parent_ids
  have hr : (c.parent_ids).range = ⟨0, git_commit_parentcount c⟩ := rfl
  have hperm0 := RangeN.runS_perm cs ⟨0, git_commit_parentcount c⟩
  have helems : RangeN.elems ⟨0, git_commit_parentcount c⟩ =
      List.range (git_commit_parentcount c) := by
    simp [RangeN.elems, List.range_eq_range']
  have hperm : ((RangeN.runS cs ⟨0, git_commit_parentcount c⟩).1 ++
      (RangeN.runS cs ⟨0, git_commit_parentcount c⟩).2.elems).Perm
      (List.range (git_commit_parentcount c)) := helems ▸ hperm0
  refine ⟨?_, ?_, ?_, ?_⟩
  · rw [hspec, hr]
    rfl
  · rw [hspec]
    exact hperm
  · exact ((hperm.nodup_iff.mpr (List.nodup_range _)).of_append_left)
  · rw [hspec]
    have hlen := hperm.length_eq
    rw [List.length_append, List.length_range] at hlen
    simp only [ParentIds.size_hint, RangeN.size_hint_eq_length]
    exact hlen

/-- C9: no pull of either iterator ever panics on a well-formed commit
whose parents all resolve — every yielded element is `some` — and the
full forward traversals complete with exactly `parentcount` elements. -/
theorem iterator_unwraps_never_panic (s : Store) (c : CommitData) (cs : List Bool)
    (hres : ∀ o ∈ c.parents, (findCommit s.commits o).isSome = true) :
    (∀ y ∈ (ParentIds.runS cs c.parent_ids).1, y.isSome = true) ∧
    (∀ y ∈ (Parents.runS s cs c.parentsIter).1, y.isSome = true) ∧
    c.parentIdsAll.length = git_commit_parentcount c ∧
    (c.parentsAll s).length = git_commit_parentcount c := by
  have hidx : ∀ i ∈ (RangeN.runS cs ⟨0, git_commit_parentcount c⟩).1,
      i < c.parents.length := by
    intro i hi
    have hp := RangeN.runS_perm cs ⟨0, git_commit_parentcount c⟩
    have hmem : i ∈ RangeN.elems ⟨0, git_commit_parentcount c⟩ :=
      hp.mem_iff.mp (List.mem_append.mpr (Or.inl hi))
    have : i ∈ List.range (git_commit_parentcount c) := by
      simpa [RangeN.elems, List.range_eq_range'] using hmem
    simpa [git_commit_parentcount] using List.mem_range.mp this
  refine ⟨?_, ?_, ?_, ?_⟩
  · intro y hy
    rw [parentIds_runS_sim] at hy
    obtain ⟨i, hi, rfl⟩ := List.mem_map.mp hy
    have hlt := hidx i hi
    show ((CommitData.parent_id c i).toOption).isSome = true
    rw [parent_id_toOption]
    simp [List.getElem?_eq_getElem hlt]
  · intro y hy
    rw [parents_runS_sim] at hy
    obtain ⟨i, hi, rfl⟩ := List.mem_map.mp hy
    have hlt := hidx i hi
    show ((CommitData.parent s c i).toOption).isSome = true
    rw [parent_toOption]
    have hsome : c.parents[i]? = some c.parents[i] := List.getElem?_eq_getElem hlt
    obtain ⟨d, hd⟩ :=
      Option.isSome_iff_exists.mp (hres c.parents[i] (List.getElem_mem hlt))
    simp [hsome, hd]
  · rw [parentIdsAll_eq]; simp [git_commit_parentcount]
  · rw [parentsAll_eq]; simp [git_commit_parentcount]

/-- C9 witness: the three-parent commit, a mixed pull schedule. -/
theorem iterator_unwraps_never_panic_witness :
    (∀ o ∈ c3p.parents, (findCommit store0.commits o).isSome = true) ∧
    ((∀ y ∈ (ParentIds.runS [true, false, true, false] c3p.parent_ids).1,
        y.isSome = true) ∧
     (∀ y ∈ (Parents.runS store0 [true, false, true, false] c3p.parentsIter).1,
        y.isSome = true) ∧
     c3p.parentIdsAll.length = git_commit_parentcount c3p ∧
     (c3p.parentsAll store0).length = git_commit_parentcount c3p) :=
  ⟨by decide,
   iterator_unwraps_never_panic store0 c3p [true, false, true, false] (by decide)⟩

/-- C2: `message_encoding()` as implemented does not return the
declared encoding: on a commit declaring `"ISO-8859-1"` with message
`"hello"` it returns the message bytes, and on a commit declaring no
encoding it returns the message instead of `None` — because the source
reads `git_commit_message`, not the encoding getter. -/
theorem message_encoding_wrong_field :
    cEnc.encoding = some isoBytes ∧
    cEnc.message_encoding = some (some helloBytes) ∧
    helloBytes ≠ isoBytes ∧
    cNoEnc.encoding = none ∧
    cNoEnc.message_encoding ≠ some none := by
  refine ⟨rfl, by decide, by decide, rfl, by decide⟩

/-- C3 counterexample: on a commit whose message bytes are the single
byte `0xFF` (not valid UTF-8), `message()` correctly returns the absent
value, but `message_encoding()` hits its `unwrap()` — the outer `none`,
i.e. a panic — instead of returning an absent value. -/
theorem message_encoding_panics_on_invalid_utf8 :
    cBad.message_bytes = some [255] ∧
    validUtf8 [255] = false ∧
    cBad.message = some none ∧
    cBad.message_encoding = none ∧
    cBad.message_encoding ≠ some none := by
  refine ⟨by decide, by decide, by decide, by decide, by decide⟩

/-- C3 amended: `message()`, `message_raw()` and `raw_header()` return
the absent value, without error or panic, when their bytes are not
valid UTF-8; `message_encoding()`, by contrast, panics (`unwrap()` of
`str::from_utf8`) when the bytes it reads are not valid UTF-8. -/
theorem text_decoding_absent_amended (c : CommitData) (b : Bytes)
    (hinv : validUtf8 b = false) :
    (c.message_bytes = some b → c.message = some none ∧ c.message_encoding = none) ∧
    (c.message_raw_bytes = some b → c.message_raw = some none) ∧
    (c.raw_header_bytes = some b → c.raw_header = some none) := by
  refine ⟨fun h => ⟨?_, ?_⟩, fun h => ?_, fun h => ?_⟩
  · unfold CommitData.message
    rw [h]
    simp [strFromUtf8, hinv]
  · unfold CommitData.message_encoding
    have hm : git_commit_message c = some b := h
    rw [hm]
    simp [strFromUtf8, hinv]
  · unfold CommitData.message_raw
    rw [h]
    simp [strFromUtf8, hinv]
  · unfold CommitData.raw_header
    rw [h]
    simp [strFromUtf8, hinv]

/-- C3 amended witness: the invalid-UTF-8 commit fixture. -/
theorem text_decoding_absent_amended_witness :
    validUtf8 [255] = false ∧
    cBad.message = some none ∧
    cBad.message_encoding = none ∧
    cBad.message_raw = some none ∧
    cBad.raw_header = some none :=
  ⟨by decide,
   ((text_decoding_absent_amended cBad [255] (by decide)).1 (by decide)).1,
   ((text_decoding_absent_amended cBad [255] (by decide)).1 (by decide)).2,
   (text_decoding_absent_amended cBad [255] (by decide)).2.1 (by decide),
   (text_decoding_absent_amended cBad [255] (by decide)).2.2 (by decide)⟩

/-- C10: for a well-formed commit object (message and header byte
fields present) the unconditional unwraps in `message_bytes`,
`message_raw_bytes` and `raw_header_bytes` cannot hit their panic
branch — each accessor totally succeeds, returning bytes derived from
the commit's own fields — while a null raw pointer does make the
unwraps panic. -/
theorem byte_accessors_total_when_wellformed (c : CommitData) (mr hd : Bytes)
    (hm : c.rawMessage = some mr) (hh : c.rawHeader = some hd) :
    c.message_bytes = some (mr.dropWhile (fun b => b = 10)) ∧
    c.message_raw_bytes = some mr ∧
    c.raw_header_bytes = some hd ∧
    (∀ c' : CommitData, c'.rawMessage = none →
      c'.message_bytes = none ∧ c'.message_raw_bytes = none) ∧
    (∀ c' : CommitData, c'.rawHeader = none → c'.raw_header_bytes = none) := by
  refine ⟨?_, ?_, ?_, ?_, ?_⟩
  · unfold CommitData.message_bytes git_commit_message
    rw [hm]
    rfl
  · unfold CommitData.message_raw_bytes git_commit_message_raw
    exact hm
  · unfold CommitData.raw_header_bytes git_commit_raw_header
    exact hh
  · intro c' h
    unfold CommitData.message_bytes git_commit_message
      CommitData.message_raw_bytes git_commit_message_raw
    rw [h]
    exact ⟨rfl, rfl⟩
  · intro c' h
    unfold CommitData.raw_header_bytes git_commit_raw_header
    exact h

/-- A commit record whose raw message and header pointers are null. -/
def cNull : CommitData := { cEnc with rawMessage := none, rawHeader := none }

/-- C10 witness: the well-formed fixture succeeds; the null-pointer
fixture hits the panic branch. -/
theorem byte_accessors_total_when_wellformed_witness :
    cEnc.message_bytes = some (helloBytes.dropWhile (fun b => b = 10)) ∧
    cEnc.message_raw_bytes = some helloBytes ∧
    cEnc.raw_header_bytes = some [116] ∧
    (cNull.message_bytes = none ∧ cNull.message_raw_bytes = none) ∧
    cNull.raw_header_bytes = none :=
  ⟨(byte_accessors_total_when_wellformed cEnc helloBytes [116] rfl rfl).1,
   (byte_accessors_total_when_wellformed cEnc helloBytes [116] rfl rfl).2.1,
   (byte_accessors_total_when_wellformed cEnc helloBytes [116] rfl rfl).2.2.1,
   (byte_accessors_total_when_wellformed cEnc helloBytes [116] rfl rfl).2.2.2.1 cNull rfl,
   (byte_accessors_total_when_wellformed cEnc helloBytes [116] rfl rfl).2.2.2.2 cNull rfl⟩

/-- C7: when any text argument of `amend` contains an embedded nul
byte, `amend` fails with the nul-rejection error and the store —
commits, references, counter — is exactly the store it was handed:
nothing was written, no reference was updated. -/
theorem amend_rejects_interior_nul (s : Store) (c : CommitHandle)
    (ur : Option Bytes) (au co : Option Signature)
    (enc msg : Option Bytes) (tr : Option Oid)
    (h : (∃ b, ur = some b ∧ (0 : Nat) ∈ b) ∨ (∃ b, enc = some b ∧ (0 : Nat) ∈ b) ∨
         (∃ b, msg = some b ∧ (0 : Nat) ∈ b)) :
    CommitHandle.amend s c ur au co enc msg tr = (.error .interiorNul, s) := by
  have hstep : ∀ x : Option Bytes,
      opt_cstr x = .ok x ∨ opt_cstr x = .error .interiorNul := by
    intro x
    cases x with
    | none => exact Or.inl rfl
    | some b =>
      by_cases hb : (0 : Nat) ∈ b
      · exact Or.inr (by simp [opt_cstr, hb])
      · exact Or.inl (by simp [opt_cstr, hb])
  have hfail : ∀ b : Bytes, (0 : Nat) ∈ b →
      opt_cstr (some b) = .error .interiorNul := by
    intro b hb
    simp [opt_cstr, hb]
  unfold CommitHandle.amend
  rcases h with ⟨b, rfl, hb⟩ | ⟨b, rfl, hb⟩ | ⟨b, rfl, hb⟩
  · rw [hfail b hb]
  · rcases hstep ur with h1 | h1 <;> rw [h1]
    rw [hfail b hb]
  · rcases hstep ur with h1 | h1 <;> rw [h1]
    rcases hstep enc with h2 | h2 <;> rw [h2]
    rw [hfail b hb]

/-- C7 witness: a message argument containing an embedded nul. -/
theorem amend_rejects_interior_nul_witness :
    ((∃ b, (none : Option Bytes) = some b ∧ (0 : Nat) ∈ b) ∨
     (∃ b, (none : Option Bytes) = some b ∧ (0 : Nat) ∈ b) ∨
     (∃ b, (some [97, 0, 98] : Option Bytes) = some b ∧ (0 : Nat) ∈ b)) ∧
    CommitHandle.amend store0 ⟨oidOfNat 3, c3p⟩ none none none none
        (some [97, 0, 98]) none = (.error .interiorNul, store0) :=
  ⟨Or.inr (Or.inr ⟨[97, 0, 98], rfl, by decide⟩),
   amend_rejects_interior_nul store0 ⟨oidOfNat 3, c3p⟩ none none none none
     (some [97, 0, 98]) none (Or.inr (Or.inr ⟨[97, 0, 98], rfl, by decide⟩))⟩

/-- C1: on a well-formed store, amending a commit that lives in the
store with nul-free text arguments succeeds and returns a fresh id,
distinct from the original's; the record stored under the fresh id
carries every `Some`-valued argument and keeps the original's value for
every `None` argument, with the parent list carried over unchanged; and
the original commit's stored record is untouched. -/
theorem amend_functional_update (s : Store) (c : CommitHandle)
    (ur : Option Bytes) (au co : Option Signature)
    (enc msg : Option Bytes) (tr : Option Oid)
    (hwf : s.WF)
    (hc : findCommit s.commits c.oid = some c.data)
    (hur : ∀ b, ur = some b → (0 : Nat) ∉ b)
    (henc : ∀ b, enc = some b → (0 : Nat) ∉ b)
    (hmsg : ∀ b, msg = some b → (0 : Nat) ∉ b) :
    ∃ newId nd s',
      CommitHandle.amend s c ur au co enc msg tr = (.ok newId, s') ∧
      newId ≠ c.id ∧
      findCommit s'.commits newId = some nd ∧
      (∀ t, tr = some t → nd.tree_id = t) ∧
      (tr = none → nd.tree_id = c.data.tree_id) ∧
      (∀ a, au = some a → nd.author = a) ∧
      (au = none → nd.author = c.data.author) ∧
      (∀ x, co = some x → nd.committer = x) ∧
      (co = none → nd.committer = c.data.committer) ∧
      (∀ e, enc = some e → nd.encoding = some e) ∧
      (enc = none → nd.encoding = c.data.encoding) ∧
      (∀ m, msg = some m → nd.rawMessage = some m) ∧
      (msg = none → nd.rawMessage = c.data.rawMessage) ∧
      nd.parents = c.data.parents ∧
      findCommit s'.commits c.id = some c.data := by
  have hure : opt_cstr ur = .ok ur := by
    cases ur with
    | none => rfl
    | some b => simp [opt_cstr, hur b rfl]
  have hence : opt_cstr enc = .ok enc := by
    cases enc with
    | none => rfl
    | some b => simp [opt_cstr, henc b rfl]
  have hmsge : opt_cstr msg = .ok msg := by
    cases msg with
    | none => rfl
    | some b => simp [opt_cstr, hmsg b rfl]
  obtain ⟨k, hk, hoid⟩ := hwf.2 _ (findCommit_eq_some_mem hc)
  have hne : oidOfNat s.ctr ≠ c.oid := by
    intro heq
    have hkb : k < 256 ^ 20 := lt_trans hk hwf.1
    have : s.ctr = k := oidOfNat_inj hwf.1 hkb (heq.trans (by simpa using hoid))
    omega
  refine ⟨oidOfNat s.ctr, amendData c.data au co enc msg tr,
    { commits := (oidOfNat s.ctr, amendData c.data au co enc msg tr) :: s.commits
      refs := amendRefs s.refs ur (oidOfNat s.ctr)
      ctr := s.ctr + 1 },
    ?_, hne, ?_, ?_, ?_, ?_, ?_, ?_, ?_, ?_, ?_, ?_, ?_, ?_, ?_⟩
  · unfold CommitHandle.amend
    rw [hure, hence, hmsge]
    rfl
  · simp [findCommit]
  · intro t ht; subst ht; simp [amendData]
  · intro ht; subst ht; simp [amendData]
  · intro a ha; subst ha; simp [amendData]
  · intro ha; subst ha; simp [amendData]
  · intro x hx; subst hx; simp [amendData]
  · intro hx; subst hx; simp [amendData]
  · intro e he; subst he; simp [amendData, Option.orElse]
  · intro he; subst he; simp [amendData, Option.orElse]
  · intro m hmm2; subst hmm2; simp [amendData]
  · intro hmm2; subst hmm2; simp [amendData]
  · simp [amendData]
  · rw [findCommit_cons]
    have hne2 : ¬ ((oidOfNat s.ctr, amendData c.data au co enc msg tr).1 = c.id) := hne
    rw [if_neg hne2]
    exact hc

/-- C1 witness: amend the stored three-parent commit, overriding the
committer and the message and updating a reference, on the well-formed
fixture store. -/
theorem amend_functional_update_witness :
    Store.WF store0 ∧
    (∃ newId nd s',
      CommitHandle.amend store0 ⟨oidOfNat 3, c3p⟩ (some [72, 69, 65, 68]) none
          (some sig0) none (some [98, 97, 114]) none = (.ok newId, s') ∧
      newId ≠ CommitHandle.id ⟨oidOfNat 3, c3p⟩ ∧
      findCommit s'.commits newId = some nd ∧
      (∀ t, (none : Option Oid) = some t → nd.tree_id = t) ∧
      ((none : Option Oid) = none → nd.tree_id = c3p.tree_id) ∧
      (∀ a, (none : Option Signature) = some a → nd.author = a) ∧
      ((none : Option Signature) = none → nd.author = c3p.author) ∧
      (∀ x, (some sig0 : Option Signature) = some x → nd.committer = x) ∧
      ((some sig0 : Option Signature) = none → nd.committer = c3p.committer) ∧
      (∀ e, (none : Option Bytes) = some e → nd.encoding = some e) ∧
      ((none : Option Bytes) = none → nd.encoding = c3p.encoding) ∧
      (∀ m, (some [98, 97, 114] : Option Bytes) = some m → nd.rawMessage = some m) ∧
      ((some [98, 97, 114] : Option Bytes) = none → nd.rawMessage = c3p.rawMessage) ∧
      nd.parents = c3p.parents ∧
      findCommit s'.commits (CommitHandle.id ⟨oidOfNat 3, c3p⟩) = some c3p) :=
  ⟨by decide,
   amend_functional_update store0 ⟨oidOfNat 3, c3p⟩ (some [72, 69, 65, 68]) none
     (some sig0) none (some [98, 97, 114]) none
     (by decide) (by decide)
     (fun b hb => by
       obtain rfl : b = [72, 69, 65, 68] := (Option.some.inj hb).symm
       decide)
     (fun b hb => nomatch hb)
     (fun b hb => by
       obtain rfl : b = [98, 97, 114] := (Option.some.inj hb).symm
       decide)⟩

/-- C8: every accessor operation on a commit handle leaves the store
untouched, and running the same accessor again — after the first run —
returns exactly the same value and store: accessors are pure reads, in
an operation type where the store-writing `amend` is expressible. -/
theorem accessors_pure (s : Store) (c : CommitHandle) (op : Op)
    (ha : op.isAccessor = true) :
    (runOp s c op).2 = s ∧
    runOp ((runOp s c op).2) c op = runOp s c op := by
  cases op <;> simp_all [runOp, Op.isAccessor]

/-- C8 witness: the message accessor on the fixture store and handle. -/
theorem accessors_pure_witness :
    Op.isAccessor .getMessage = true ∧
    ((runOp store0 ⟨oidOfNat 3, c3p⟩ .getMessage).2 = store0 ∧
     runOp ((runOp store0 ⟨oidOfNat 3, c3p⟩ .getMessage).2) ⟨oidOfNat 3, c3p⟩
         .getMessage =
       runOp store0 ⟨oidOfNat 3, c3p⟩ .getMessage) :=
  ⟨rfl, accessors_pure store0 ⟨oidOfNat 3, c3p⟩ .getMessage rfl⟩
